import Mathlib

/-!
Shallow embedding of the core of src/app.py (a local RAG application):
script detection, the character chunker, document ingestion, index id
construction, retrieval filtering, and the translation gate.

Python strings are modelled as List Char (a Python str is a sequence of
code points). Python ints arising here are natural numbers (page indices
and chunk indices come from enumerate; chunk size and overlap are used
under the documented preconditions size > 0, 0 <= overlap < size).
-/

/-- Whitespace predicate of Python str.strip: the code points for which
Python str.isspace holds (ASCII whitespace, the C1 and Unicode space
separators). -/
def pyIsSpace (c : Char) : Bool :=
  let n := c.toNat
  (9 ≤ n && n ≤ 13) || (28 ≤ n && n ≤ 31) || n == 32 || n == 0x85 || n == 0xa0 ||
  n == 0x1680 || (0x2000 ≤ n && n ≤ 0x200a) || n == 0x2028 || n == 0x2029 ||
  n == 0x202f || n == 0x205f || n == 0x3000

/-- Model of Python str.strip(): remove leading and trailing whitespace. -/
def stripList (l : List Char) : List Char :=
  ((l.dropWhile pyIsSpace).reverse.dropWhile pyIsSpace).reverse

/-- Model of Python s.replace of CRLF by LF, as done by chunk_text. -/
def replaceCRLF : List Char → List Char
  | [] => []
  | '\r' :: '\n' :: rest => '\n' :: replaceCRLF rest
  | c :: rest => c :: replaceCRLF rest

/-- Script detector from src/app.py: true iff some code point lies in the
CJK Unified Ideographs block U+4E00 to U+9FFF. -/
def _has_cjk (text : List Char) : Bool :=
  text.any (fun c => 0x4e00 ≤ c.toNat && c.toNat ≤ 0x9fff)

/-- Script detector from src/app.py: true iff some code point is an ASCII
letter A-Z or a-z. -/
def _has_latin (text : List Char) : Bool :=
  text.any (fun c => (65 ≤ c.toNat && c.toNat ≤ 90) || (97 ≤ c.toNat && c.toNat ≤ 122))

/-- Fuel-indexed model of the while loop of chunk_text in src/app.py.
The loop body appends text[start:min(start+chunk_size, n)], breaks when the
window reaches n, and otherwise restarts at max(0, end - overlap). Fuel
exhaustion (none) models non-termination of the Python loop. -/
def chunkLoop (t : List Char) (n chunk_size overlap : Nat) (start : Nat) :
    Nat → Option (List (List Char))
  | 0 => if start < n then none else some []
  | fuel + 1 =>
    if start < n then
      let e := min (start + chunk_size) n
      let piece := (t.drop start).take (e - start)
      if e = n then some [piece]
      else (chunkLoop t n chunk_size overlap (max 0 (e - overlap)) fuel).map
        (fun cs => piece :: cs)
    else some []

/-- Model of chunk_text from src/app.py: normalize CRLF to LF, strip,
return [] on empty, otherwise run the sliding-window loop. A fuel of
length t suffices under the preconditions (proved below). -/
def chunk_text (text : List Char) (chunk_size overlap : Nat) : List (List Char) :=
  let t := stripList (replaceCRLF text)
  if t = [] then []
  else (chunkLoop t t.length chunk_size overlap 0 t.length).getD []

/-- Reassembly of a chunk list as described by the spec: keep the first
chunk whole, drop the first overlap characters of each later chunk, and
concatenate. -/
def reassemble (overlap : Nat) : List (List Char) → List Char
  | [] => []
  | c :: rest => c ++ (rest.map (fun s => s.drop overlap)).flatten

/-- Model of translate_text from src/app.py. A translation provider
(Python pipeline object, obtained from get_translators) is modelled as an
optional function returning Except: none is an unavailable provider, and
Except.error models the provider call raising an exception. -/
def translate_text (zh2en en2zh : Option (List Char → Except Unit (List Char)))
    (text target_lang : List Char) : List Char :=
  let text := stripList text
  if text = [] then text
  else
    let cjk := _has_cjk text
    let latin := _has_latin text
    if target_lang = ("en").data then
      if !cjk || latin then text
      else
        match zh2en with
        | none => text
        | some f =>
          match f text with
          | Except.ok r => r
          | Except.error _ => text
    else if target_lang = ("zh").data then
      if !latin || cjk then text
      else
        match en2zh with
        | none => text
        | some f =>
          match f text with
          | Except.ok r => r
          | Except.error _ => text
    else text

/-- Instrumentation of translate_text: true exactly on the branches of the
source in which a translation provider is called. -/
def translate_invokes (zh2en en2zh : Option (List Char → Except Unit (List Char)))
    (text target_lang : List Char) : Bool :=
  let text := stripList text
  if text = [] then false
  else
    let cjk := _has_cjk text
    let latin := _has_latin text
    if target_lang = ("en").data then
      if !cjk || latin then false
      else
        match zh2en with
        | none => false
        | some _ => true
    else if target_lang = ("zh").data then
      if !latin || cjk then false
      else
        match en2zh with
        | none => false
        | some _ => true
    else false

/-- Instrumentation of translate_text: true exactly on the branches of the
source in which a provider is called and its result is returned (no
exception was raised). -/
def translate_performed (zh2en en2zh : Option (List Char → Except Unit (List Char)))
    (text target_lang : List Char) : Bool :=
  let text := stripList text
  if text = [] then false
  else
    let cjk := _has_cjk text
    let latin := _has_latin text
    if target_lang = ("en").data then
      if !cjk || latin then false
      else
        match zh2en with
        | none => false
        | some f =>
          match f text with
          | Except.ok _ => true
          | Except.error _ => false
    else if target_lang = ("zh").data then
      if !latin || cjk then false
      else
        match en2zh with
        | none => false
        | some f =>
          match f text with
          | Except.ok _ => true
          | Except.error _ => false
    else false

/-- Page record of iter_docs: extracted text plus zero-based page index. -/
structure Page where
  text : List Char
  page : Nat
deriving DecidableEq, Repr

/-- Document record of iter_docs: filename, filetype tag, ordered pages. -/
structure PDoc where
  filename : List Char
  filetype : List Char
  pages : List Page
deriving DecidableEq, Repr

/-- Directory entry seen by iter_docs. The three content fields are
oracles for what the format-specific readers of src/app.py would produce
for this file: read_txt's decoded text (decoding errors already ignored),
the per-page extracted text of read_pdf (an unextractable page is already
the empty string, modelling (extract_text() or "")), and the paragraph
texts of read_docx (none models a null paragraph text). -/
structure Entry where
  name : List Char
  isFile : Bool
  txtContent : List Char
  pdfPages : List (List Char)
  docxParas : List (Option (List Char))
deriving DecidableEq, Repr

/-- Model of read_txt from src/app.py. -/
def read_txt (p : Entry) : List Char := p.txtContent

/-- Model of read_pdf from src/app.py: one page per physical page, page
index from enumerate. -/
def read_pdf (p : Entry) : List Page :=
  p.pdfPages.enum.map (fun it => { text := it.2, page := it.1 })

/-- Model of the newline join of Python: separator LF between elements. -/
def joinNL (ls : List (List Char)) : List Char :=
  (List.intersperse ['\n'] ls).flatten

/-- Model of read_docx from src/app.py: non-null paragraph texts joined by
newline, a single page with index 0. -/
def read_docx (p : Entry) : List Page :=
  [{ text := joinNL (p.docxParas.filterMap id), page := 0 }]

/-- Model of Python pathlib Path.suffix: the part of the name from the
last dot on, empty when the name has no dot, starts with its only dot, or
ends with the dot. -/
def pathSuffix (name : List Char) : List Char :=
  let r := name.reverse
  let ext := r.takeWhile (fun c => c != '.')
  match r.dropWhile (fun c => c != '.') with
  | [] => []
  | _ :: rest => if ext.isEmpty || rest.isEmpty then [] else '.' :: ext.reverse

/-- ASCII lowercasing of one code point, modelling Python str.lower on the
extension characters compared against the ASCII literals of the source. -/
def lowerChar (c : Char) : Char :=
  if 65 ≤ c.toNat && c.toNat ≤ 90 then Char.ofNat (c.toNat + 32) else c

/-- Lowercased extension of a filename, modelling p.suffix.lower(). -/
def suffixLower (name : List Char) : List Char :=
  (pathSuffix name).map lowerChar

/-- Dispatch of one directory entry inside the loop of iter_docs: skip
non-files, then build a document according to the lowercased extension,
skipping unsupported ones. -/
def entryDoc (p : Entry) : Option PDoc :=
  if !p.isFile then none
  else
    let sfx := suffixLower p.name
    if sfx = (".txt").data then
      some { filename := p.name, filetype := ("text").data,
             pages := [{ text := read_txt p, page := 0 }] }
    else if sfx = (".pdf").data then
      some { filename := p.name, filetype := ("pdf").data, pages := read_pdf p }
    else if sfx = (".docx").data then
      some { filename := p.name, filetype := ("docx").data, pages := read_docx p }
    else none

/-- Model of iter_docs from src/app.py: iterate the directory entries in
sorted name order (sorted(docs_dir.glob("*"))) and collect the documents
of the qualifying entries. -/
def iter_docs (entries : List Entry) : List PDoc :=
  (List.insertionSort (fun a b : Entry => a.name ≤ b.name) entries).filterMap entryDoc

/-- Spec-side predicate for C9: a regular file whose extension, compared
case-insensitively, is .txt, .pdf or .docx. -/
def supportedEntry (p : Entry) : Bool :=
  if !p.isFile then false
  else
    let sfx := suffixLower p.name
    if sfx = (".txt").data then true
    else if sfx = (".pdf").data then true
    else if sfx = (".docx").data then true
    else false

/-- Document built for a qualifying entry (the some-branches of entryDoc). -/
def entryBuild (p : Entry) : PDoc :=
  let sfx := suffixLower p.name
  if sfx = (".txt").data then
    { filename := p.name, filetype := ("text").data,
      pages := [{ text := read_txt p, page := 0 }] }
  else if sfx = (".pdf").data then
    { filename := p.name, filetype := ("pdf").data, pages := read_pdf p }
  else
    { filename := p.name, filetype := ("docx").data, pages := read_docx p }

/-- Default chunk size of src/app.py. -/
def CHUNK_SIZE : Nat := 700

/-- Default chunk overlap of src/app.py. -/
def CHUNK_OVERLAP : Nat := 120

/-- Fuel-indexed digit extraction: one decimal digit is split off per
unit of fuel, least significant last. -/
def natDigitsGo : Nat → Nat → List Char
  | 0, _ => []
  | fuel + 1, n =>
    if n < 10 then [Char.ofNat (48 + n)]
    else natDigitsGo fuel (n / 10) ++ [Char.ofNat (48 + n % 10)]

/-- Decimal digit list of a natural number, modelling the decimal
formatting of a Python int inside the id f-string of rebuild_index. A
fuel of n + 1 always suffices since n < 10 ^ (n + 1). -/
def natDigits (n : Nat) : List Char :=
  natDigitsGo (n + 1) n

/-- Composite chunk id built by rebuild_index in src/app.py:
filename|p<page>|c<chunk_index>. -/
def chunkId (filename : List Char) (page ch_i : Nat) : List Char :=
  filename ++ ('|' :: 'p' :: natDigits page) ++ ('|' :: 'c' :: natDigits ch_i)

/-- Ids accumulated by the triple loop of rebuild_index: for each
document, for each page, one id per chunk of the page text (chunked with
the default size and overlap), the chunk index from enumerate. -/
def rebuild_ids (docs : List PDoc) : List (List Char) :=
  docs.flatMap (fun d => d.pages.flatMap (fun pg =>
    (List.range (chunk_text pg.text CHUNK_SIZE CHUNK_OVERLAP).length).map
      (fun ch_i => chunkId d.filename pg.page ch_i)))

/-- Pure core of rebuild_index from src/app.py: the returned pair
(chunk count, document count). Collection deletion, creation and the bulk
upsert are vector-store effects outside the model. -/
def rebuild_index (entries : List Entry) : Nat × Nat :=
  let docs := iter_docs entries
  ((rebuild_ids docs).length, docs.length)

/-- Python truthiness of an optional sequence or mapping: None and the
empty value are falsy. -/
def pyTruthy {α : Type} : Option (List α) → Bool
  | none => false
  | some l => !l.isEmpty

/-- Model of retrieve from src/app.py. The vector store is an oracle from
(question, n_results) to the first row of the documents and metadatas
arrays of the query response; a metadata dict is an association list, with
none for null. The loop keeps the zipped pairs in which both members are
truthy. -/
def retrieve {β : Type} (store : List Char → Nat →
      List (Option (List Char)) × List (Option (List β)))
    (question : List Char) (top_k : Nat) :
    List (Option (List Char) × Option (List β)) :=
  let res := store question top_k
  let docs := res.1
  let metas := res.2
  (docs.zip metas).filter (fun dm => pyTruthy dm.1 && pyTruthy dm.2)

/-- CRLF normalization does not lengthen a string. -/
lemma replaceCRLF_length_le (l : List Char) : (replaceCRLF l).length ≤ l.length := by
  induction l using replaceCRLF.induct <;> simp [replaceCRLF] <;> omega

/-- Stripping does not lengthen a string. -/
lemma stripList_length_le (l : List Char) : (stripList l).length ≤ l.length := by
  unfold stripList
  have h1 := (@List.dropWhile_sublist Char l pyIsSpace).length_le
  have h2 :=
    (@List.dropWhile_sublist Char (l.dropWhile pyIsSpace).reverse pyIsSpace).length_le
  simp only [List.length_reverse] at *
  omega

/-- Unfolding of one iteration of the chunk loop at positive fuel. -/
lemma chunkLoop_succ (t : List Char) (size ov start fuel : Nat) (h1 : start < t.length) :
    chunkLoop t t.length size ov start (fuel + 1) =
      (if min (start + size) t.length = t.length
       then some [(t.drop start).take (min (start + size) t.length - start)]
       else (chunkLoop t t.length size ov (max 0 (min (start + size) t.length - ov)) fuel).map
         (fun cs => (t.drop start).take (min (start + size) t.length - start) :: cs)) := by
  simp [chunkLoop, h1]

/-- Unfolding of one iteration of the chunk loop, phrased for any
positive fuel. -/
lemma chunkLoop_pos (t : List Char) (size ov start fuel : Nat) (hf : 0 < fuel)
    (h1 : start < t.length) :
    chunkLoop t t.length size ov start fuel =
      (if min (start + size) t.length = t.length
       then some [(t.drop start).take (min (start + size) t.length - start)]
       else (chunkLoop t t.length size ov (max 0 (min (start + size) t.length - ov))
          (fuel - 1)).map
         (fun cs => (t.drop start).take (min (start + size) t.length - start) :: cs)) := by
  cases fuel with
  | zero => omega
  | succ f => simpa using chunkLoop_succ t size ov start f h1

/-- Invariant of the chunk loop: with enough fuel it succeeds, produces a
non-empty chunk list whose members with the first overlap characters
removed concatenate to the remaining text past start + overlap, and whose
last chunk is a final segment of the text. -/
lemma chunkLoop_spec (t : List Char) (size ov : Nat) (hs : 0 < size) (ho : ov < size) :
    ∀ fuel start, start < t.length → t.length - start ≤ fuel →
      ∃ cs, chunkLoop t t.length size ov start fuel = some cs ∧
        cs ≠ [] ∧
        (cs.map (fun c => c.drop ov)).flatten = t.drop (start + ov) ∧
        ∃ s, s < t.length ∧ cs.getLast? = some (t.drop s) := by
  intro fuel
  induction fuel with
  | zero => intro start h1 h2; omega
  | succ fuel ih =>
    intro start h1 h2
    rw [chunkLoop_succ t size ov start fuel h1]
    by_cases he : min (start + size) t.length = t.length
    · rw [if_pos he]
      have hpiece : (t.drop start).take (min (start + size) t.length - start) = t.drop start := by
        rw [he, ← List.length_drop]
        exact List.take_length _
      refine ⟨[t.drop start], by rw [hpiece], by simp, ?_, start, h1, by simp⟩
      simp [List.drop_drop]
    · rw [if_neg he]
      have hmin : min (start + size) t.length = start + size := by omega
      have hmax : max 0 (min (start + size) t.length - ov) = start + (size - ov) := by omega
      have h1' : start + (size - ov) < t.length := by omega
      have h2' : t.length - (start + (size - ov)) ≤ fuel := by omega
      obtain ⟨cs', hloop, hne', hflat, s, hs', hlast⟩ := ih (start + (size - ov)) h1' h2'
      rw [hmax, hloop]
      refine ⟨(t.drop start).take (min (start + size) t.length - start) :: cs', rfl, by simp,
        ?_, s, hs', ?_⟩
      · have hstep : start + (size - ov) + ov = start + size := by omega
        rw [hstep] at hflat
        simp only [List.map_cons, List.flatten_cons, hflat]
        have hdrop : ((t.drop start).take (min (start + size) t.length - start)).drop ov =
            (t.drop (start + ov)).take (size - ov) := by
          rw [hmin]
          have : start + size - start = size := by omega
          rw [this, List.drop_take, List.drop_drop]
        rw [hdrop]
        have htail : t.drop (start + size) = (t.drop (start + ov)).drop (size - ov) := by
          rw [List.drop_drop]
          congr 1
          omega
        rw [htail]
        exact List.take_append_drop _ _
      · cases cs' with
        | nil => exact absurd rfl hne'
        | cons b l => rw [List.getLast?_cons_cons]; exact hlast

/-- Coverage form of the loop invariant: the chunks produced from any
start position, reassembled with the overlap removed, give exactly the
text from that position on. -/
lemma chunkLoop_cover (t : List Char) (size ov : Nat) (hs : 0 < size) (ho : ov < size)
    (start fuel : Nat) (h1 : start < t.length) (h2 : t.length - start ≤ fuel) :
    ∃ cs, chunkLoop t t.length size ov start fuel = some cs ∧
      reassemble ov cs = t.drop start ∧ cs ≠ [] ∧
      ∃ s, s < t.length ∧ cs.getLast? = some (t.drop s) := by
  cases fuel with
  | zero => omega
  | succ fuel =>
    rw [chunkLoop_succ t size ov start fuel h1]
    by_cases he : min (start + size) t.length = t.length
    · rw [if_pos he]
      have hpiece : (t.drop start).take (min (start + size) t.length - start) = t.drop start := by
        rw [he, ← List.length_drop]
        exact List.take_length _
      exact ⟨[t.drop start], by rw [hpiece], by simp [reassemble], by simp, start, h1, by simp⟩
    · rw [if_neg he]
      have hmin : min (start + size) t.length = start + size := by omega
      have hmax : max 0 (min (start + size) t.length - ov) = start + (size - ov) := by omega
      have h1' : start + (size - ov) < t.length := by omega
      have h2' : t.length - (start + (size - ov)) ≤ fuel := by omega
      obtain ⟨cs', hloop, hne', hflat, s, hs', hlast⟩ :=
        chunkLoop_spec t size ov hs ho fuel (start + (size - ov)) h1' h2'
      rw [hmax, hloop]
      refine ⟨(t.drop start).take (min (start + size) t.length - start) :: cs', rfl, ?_, by simp,
        s, hs', ?_⟩
      · have hstep : start + (size - ov) + ov = start + size := by omega
        rw [hstep] at hflat
        simp only [reassemble, hflat]
        have htail : t.drop (start + size) = (t.drop start).drop size := by
          rw [List.drop_drop]
        rw [htail, hmin]
        have : start + size - start = size := by omega
        rw [this]
        exact List.take_append_drop _ _
      · cases cs' with
        | nil => exact absurd rfl hne'
        | cons b l => rw [List.getLast?_cons_cons]; exact hlast

/-- C1 (counterexample): the claim as stated fails, because chunk_text
first strips the input (and normalizes CRLF), so the chunks reassemble to
the trimmed string, not to the original one: for the input " x" (with
size 10, overlap 0) the single chunk is "x" and its reassembly differs
from the input. -/
theorem chunk_coverage_cex :
    reassemble 0 (chunk_text ((" x").data) 10 0) ≠ (" x").data := by decide

/-- C1 (amended): for every input whose normalized form (CRLF to LF,
stripped) is non-empty, and every size > 0 and 0 <= overlap < size,
reassembling the chunks of chunk_text with the overlap removed (first
chunk whole, each later chunk without its first overlap characters)
yields exactly the normalized input, and the last chunk is a final
segment of the normalized input, so its end position equals the
normalized input's length. -/
theorem chunk_coverage (text : List Char) (size ov : Nat) (hs : 0 < size) (ho : ov < size)
    (hne : stripList (replaceCRLF text) ≠ []) :
    reassemble ov (chunk_text text size ov) = stripList (replaceCRLF text) ∧
    ∃ s, s < (stripList (replaceCRLF text)).length ∧
      (chunk_text text size ov).getLast? =
        some ((stripList (replaceCRLF text)).drop s) := by
  have h1 : 0 < (stripList (replaceCRLF text)).length := by
    cases h : stripList (replaceCRLF text) with
    | nil => exact absurd h hne
    | cons a l => simp [h]
  obtain ⟨cs, hloop, hcov, hcs, s, hs', hlast⟩ :=
    chunkLoop_cover (stripList (replaceCRLF text)) size ov hs ho 0
      (stripList (replaceCRLF text)).length h1 (by omega)
  have hct : chunk_text text size ov = cs := by
    unfold chunk_text
    rw [if_neg hne, hloop]
    rfl
  rw [hct, hcov, hlast]
  exact ⟨by simp, s, hs', rfl⟩

/-- C1 (witness): coverage at a concrete input. -/
theorem chunk_coverage_witness :
    reassemble 3 (chunk_text (("hello world, this is a test string!").data) 10 3) =
      stripList (replaceCRLF (("hello world, this is a test string!").data)) ∧
    ∃ s, s < (stripList (replaceCRLF (("hello world, this is a test string!").data))).length ∧
      (chunk_text (("hello world, this is a test string!").data) 10 3).getLast? =
        some ((stripList (replaceCRLF (("hello world, this is a test string!").data))).drop s) :=
  chunk_coverage (("hello world, this is a test string!").data) 10 3 (by decide) (by decide)
    (by decide)

/-- C3 (confirmed): under the preconditions size > 0 and overlap < size
the chunk loop terminates — a fuel equal to the length of the normalized
text suffices, so the Python while loop ends — and on every continuing
iteration the next start offset max(0, end - overlap) is strictly larger
than the current one. -/
theorem chunk_terminates (text : List Char) (size ov start : Nat)
    (hs : 0 < size) (ho : ov < size) :
    (chunkLoop (stripList (replaceCRLF text)) (stripList (replaceCRLF text)).length size ov 0
      (stripList (replaceCRLF text)).length).isSome = true ∧
    (start < (stripList (replaceCRLF text)).length →
      min (start + size) (stripList (replaceCRLF text)).length ≠
        (stripList (replaceCRLF text)).length →
      start < max 0 (min (start + size) (stripList (replaceCRLF text)).length - ov)) := by
  constructor
  · by_cases h0 : 0 < (stripList (replaceCRLF text)).length
    · obtain ⟨cs, hloop, _⟩ :=
        chunkLoop_spec (stripList (replaceCRLF text)) size ov hs ho
          (stripList (replaceCRLF text)).length 0 h0 (by omega)
      rw [hloop]
      rfl
    · have hz : (stripList (replaceCRLF text)).length = 0 := by omega
      rw [hz]
      simp [chunkLoop]
  · intro hlt hne
    omega

/-- C3 (witness): termination and strict progress at a concrete input. -/
theorem chunk_terminates_witness :
    (chunkLoop (stripList (replaceCRLF (("abc").data)))
      (stripList (replaceCRLF (("abc").data))).length 2 1 0
      (stripList (replaceCRLF (("abc").data))).length).isSome = true ∧
    (0 < (stripList (replaceCRLF (("abc").data))).length →
      min (0 + 2) (stripList (replaceCRLF (("abc").data))).length ≠
        (stripList (replaceCRLF (("abc").data))).length →
      0 < max 0 (min (0 + 2) (stripList (replaceCRLF (("abc").data))).length - 1)) :=
  chunk_terminates (("abc").data) 2 1 0 (by decide) (by decide)

/-- C7 (counterexample): the claim as stated fails for a whitespace-only
input: "   " has length 3 <= 5 but chunk_text returns no chunk at all
(the trimmed text is empty), not exactly one. -/
theorem chunk_single_cex : ¬ ((chunk_text (("   ").data) 5 1).length = 1) := by decide

/-- C7 (amended): for every input text of length at most size whose
normalized form (CRLF to LF, stripped) is non-empty, chunk_text returns
exactly one chunk, and that chunk is the normalized (trimmed) input. -/
theorem chunk_single (text : List Char) (size ov : Nat)
    (hlen : text.length ≤ size) (hne : stripList (replaceCRLF text) ≠ []) :
    chunk_text text size ov = [stripList (replaceCRLF text)] := by
  have hlen2 : (stripList (replaceCRLF text)).length ≤ size := by
    have := stripList_length_le (replaceCRLF text)
    have := replaceCRLF_length_le text
    omega
  have h1 : 0 < (stripList (replaceCRLF text)).length := by
    cases h : stripList (replaceCRLF text) with
    | nil => exact absurd h hne
    | cons a l => simp [h]
  unfold chunk_text
  rw [if_neg hne]
  rw [chunkLoop_pos _ size ov 0 _ (by omega) (by omega)]
  have hmin : min (0 + size) (stripList (replaceCRLF text)).length =
      (stripList (replaceCRLF text)).length := by omega
  rw [if_pos hmin, hmin]
  simp

/-- C7 (witness): a short input with surrounding whitespace gives exactly
the one trimmed chunk. -/
theorem chunk_single_witness :
    chunk_text (("  hi  ").data) 6 3 = [stripList (replaceCRLF (("  hi  ").data))] :=
  chunk_single (("  hi  ").data) 6 3 (by decide) (by decide)

/-- Dropping a whitespace run does not change the result of a character
search whose predicate rejects whitespace. -/
lemma any_dropWhile_pyIsSpace (p : Char → Bool) (h : ∀ c, pyIsSpace c = true → p c = false)
    (l : List Char) : (l.dropWhile pyIsSpace).any p = l.any p := by
  induction l with
  | nil => rfl
  | cons a l ih =>
    rw [List.dropWhile_cons]
    by_cases ha : pyIsSpace a = true
    · rw [if_pos ha, ih, List.any_cons, h a ha]
      simp
    · rw [if_neg ha]

/-- Stripping does not change the result of a character search whose
predicate rejects whitespace. -/
lemma any_stripList (p : Char → Bool) (h : ∀ c, pyIsSpace c = true → p c = false)
    (l : List Char) : (stripList l).any p = l.any p := by
  unfold stripList
  rw [List.any_reverse, any_dropWhile_pyIsSpace p h, List.any_reverse,
    any_dropWhile_pyIsSpace p h]

/-- Whitespace is not CJK, so stripping preserves the CJK detector. -/
lemma _has_cjk_stripList (l : List Char) : _has_cjk (stripList l) = _has_cjk l := by
  unfold _has_cjk
  refine any_stripList _ ?_ l
  intro c hc
  simp only [pyIsSpace] at hc
  simp only [Bool.and_eq_false_iff, decide_eq_false_iff_not, not_le]
  simp only [Bool.or_eq_true, Bool.and_eq_true, decide_eq_true_eq, beq_iff_eq] at hc
  omega

/-- Whitespace is not an ASCII letter, so stripping preserves the Latin
detector. -/
lemma _has_latin_stripList (l : List Char) : _has_latin (stripList l) = _has_latin l := by
  unfold _has_latin
  refine any_stripList _ ?_ l
  intro c hc
  simp only [pyIsSpace] at hc
  simp only [Bool.or_eq_false_iff, Bool.and_eq_false_iff, decide_eq_false_iff_not, not_le]
  simp only [Bool.or_eq_true, Bool.and_eq_true, decide_eq_true_eq, beq_iff_eq] at hc
  omega

/-- A string with a CJK character does not strip to the empty string. -/
lemma stripList_ne_nil_of_cjk (l : List Char) (h : _has_cjk l = true) : stripList l ≠ [] := by
  intro hnil
  have := _has_cjk_stripList l
  rw [hnil, h] at this
  simp [_has_cjk] at this

/-- A string with an ASCII letter does not strip to the empty string. -/
lemma stripList_ne_nil_of_latin (l : List Char) (h : _has_latin l = true) :
    stripList l ≠ [] := by
  intro hnil
  have := _has_latin_stripList l
  rw [hnil, h] at this
  simp [_has_latin] at this

/-- A whitespace-only string strips to the empty string. -/
lemma stripList_eq_nil_of_space (l : List Char) (h : ∀ c ∈ l, pyIsSpace c = true) :
    stripList l = [] := by
  unfold stripList
  have h1 : l.dropWhile pyIsSpace = [] := List.dropWhile_eq_nil_iff.mpr h
  rw [h1]
  rfl

/-- Characterization of the branches of translate_text in which a
provider is called, in terms of the detectors on the unstripped input. -/
lemma translate_invokes_iff (z e : Option (List Char → Except Unit (List Char)))
    (text target : List Char) :
    translate_invokes z e text target = true ↔
      ((target = ("en").data ∧ _has_cjk text = true ∧ _has_latin text = false ∧
          z.isSome = true) ∨
       (target = ("zh").data ∧ _has_latin text = true ∧ _has_cjk text = false ∧
          e.isSome = true)) := by
  unfold translate_invokes
  by_cases h0 : stripList text = []
  · have hc : _has_cjk text = false := by
      rw [← _has_cjk_stripList, h0]; rfl
    have hl : _has_latin text = false := by
      rw [← _has_latin_stripList, h0]; rfl
    simp [h0, hc, hl]
  · rw [if_neg h0]
    by_cases hen : target = ("en").data
    · subst hen
      rw [if_pos rfl]
      have hneq : ¬ ((("en").data : List Char) = ("zh").data) := by decide
      simp only [_has_cjk_stripList, _has_latin_stripList]
      cases hcjk : _has_cjk text <;> cases hlat : _has_latin text <;> cases z <;>
        simp [hneq]
    · rw [if_neg hen]
      by_cases hzh : target = ("zh").data
      · subst hzh
        rw [if_pos rfl]
        have hneq : ¬ ((("zh").data : List Char) = ("en").data) := by decide
        simp only [_has_cjk_stripList, _has_latin_stripList]
        cases hcjk : _has_cjk text <;> cases hlat : _has_latin text <;> cases e <;>
          simp [hneq]
      · rw [if_neg hzh]
        simp [hen, hzh]

/-- In a branch that calls no provider, translate_text returns the
stripped input. -/
lemma translate_text_of_not_invokes (z e : Option (List Char → Except Unit (List Char)))
    (text target : List Char) (h : translate_invokes z e text target = false) :
    translate_text z e text target = stripList text := by
  unfold translate_text
  unfold translate_invokes at h
  by_cases h0 : stripList text = []
  · simp [h0]
  · rw [if_neg h0] at h ⊢
    by_cases hen : target = ("en").data
    · rw [if_pos hen] at h ⊢
      by_cases hgate : (!_has_cjk (stripList text) || _has_latin (stripList text)) = true
      · rw [if_pos hgate]
      · rw [if_neg hgate] at h ⊢
        cases z with
        | none => rfl
        | some f => simp at h
    · rw [if_neg hen] at h ⊢
      by_cases hzh : target = ("zh").data
      · rw [if_pos hzh] at h ⊢
        by_cases hgate : (!_has_latin (stripList text) || _has_cjk (stripList text)) = true
        · rw [if_pos hgate]
        · rw [if_neg hgate] at h ⊢
          cases e with
          | none => rfl
          | some f => simp at h
      · rw [if_neg hzh]

/-- If the provider call raises, translate_text returns the stripped
input (the except-branch of the source). -/
lemma translate_text_of_error (f g : List Char → Except Unit (List Char))
    (text target : List Char)
    (hf : f (stripList text) = Except.error ())
    (hg : g (stripList text) = Except.error ()) :
    translate_text (some f) (some g) text target = stripList text := by
  unfold translate_text
  by_cases h0 : stripList text = []
  · simp [h0]
  · rw [if_neg h0]
    by_cases hen : target = ("en").data
    · rw [if_pos hen]
      by_cases hgate : (!_has_cjk (stripList text) || _has_latin (stripList text)) = true
      · rw [if_pos hgate]
      · rw [if_neg hgate]
        simp [hf]
    · rw [if_neg hen]
      by_cases hzh : target = ("zh").data
      · rw [if_pos hzh]
        by_cases hgate : (!_has_latin (stripList text) || _has_cjk (stripList text)) = true
        · rw [if_pos hgate]
        · rw [if_neg hgate]
          simp [hg]
      · rw [if_neg hzh]

/-- When no translation is performed, translate_text returns the
stripped input: the no-provider-call branches return it directly, and the
raising branch falls back to it. -/
lemma translate_text_of_not_performed (z e : Option (List Char → Except Unit (List Char)))
    (text target : List Char) (h : translate_performed z e text target = false) :
    translate_text z e text target = stripList text := by
  unfold translate_text
  unfold translate_performed at h
  by_cases h0 : stripList text = []
  · simp [h0]
  · rw [if_neg h0] at h ⊢
    by_cases hen : target = ("en").data
    · rw [if_pos hen] at h ⊢
      by_cases hgate : (!_has_cjk (stripList text) || _has_latin (stripList text)) = true
      · rw [if_pos hgate]
      · rw [if_neg hgate] at h ⊢
        cases z with
        | none => rfl
        | some f =>
          cases hres : f (stripList text) with
          | ok r => simp [hres] at h
          | error u => simp [hres]
    · rw [if_neg hen] at h ⊢
      by_cases hzh : target = ("zh").data
      · rw [if_pos hzh] at h ⊢
        by_cases hgate : (!_has_latin (stripList text) || _has_cjk (stripList text)) = true
        · rw [if_pos hgate]
        · rw [if_neg hgate] at h ⊢
          cases e with
          | none => rfl
          | some f =>
            cases hres : f (stripList text) with
            | ok r => simp [hres] at h
            | error u => simp [hres]
      · rw [if_neg hzh]

/-- A performed translation implies a provider call. -/
lemma translate_invokes_of_performed (z e : Option (List Char → Except Unit (List Char)))
    (text target : List Char) (h : translate_performed z e text target = true) :
    translate_invokes z e text target = true := by
  unfold translate_performed at h
  unfold translate_invokes
  by_cases h0 : stripList text = []
  · rw [if_pos h0] at h; simp at h
  · rw [if_neg h0] at h ⊢
    by_cases hen : target = ("en").data
    · rw [if_pos hen] at h ⊢
      by_cases hgate : (!_has_cjk (stripList text) || _has_latin (stripList text)) = true
      · rw [if_pos hgate] at h; simp at h
      · rw [if_neg hgate] at h ⊢
        cases z with
        | none => simp at h
        | some f => rfl
    · rw [if_neg hen] at h ⊢
      by_cases hzh : target = ("zh").data
      · rw [if_pos hzh] at h ⊢
        by_cases hgate : (!_has_latin (stripList text) || _has_cjk (stripList text)) = true
        · rw [if_pos hgate] at h; simp at h
        · rw [if_neg hgate] at h ⊢
          cases e with
          | none => simp at h
          | some f => rfl
      · rw [if_neg hzh] at h; simp at h

/-- C2 (counterexample): the claim as stated fails because the
passthrough branches return the stripped snippet, not the snippet
unchanged: for the mixed-script input " Hello 你好 " with target en no
provider is invoked, yet the result differs from the input. -/
theorem translate_gate_cex :
    translate_text none none ((" Hello 你好 ").data) (("en").data) ≠ (" Hello 你好 ").data := by
  decide

/-- C2 (amended): a provider is invoked exactly when the target is en and
the text is CJK-only with the zh-to-en provider available, or the target
is zh and the text is Latin-only with the en-to-zh provider available; in
every other case translate_text returns the snippet with surrounding
whitespace stripped. -/
theorem translate_gate (z e : Option (List Char → Except Unit (List Char)))
    (text target : List Char) :
    (translate_invokes z e text target = true ↔
      ((target = ("en").data ∧ _has_cjk text = true ∧ _has_latin text = false ∧
          z.isSome = true) ∨
       (target = ("zh").data ∧ _has_latin text = true ∧ _has_cjk text = false ∧
          e.isSome = true))) ∧
    (translate_invokes z e text target = false →
      translate_text z e text target = stripList text) :=
  ⟨translate_invokes_iff z e text target,
   fun h => translate_text_of_not_invokes z e text target h⟩

/-- C2 (witness): the gate at a concrete pure-CJK input with target en
and no providers. -/
theorem translate_gate_witness :
    (translate_invokes none none (("你好").data) (("en").data) = true ↔
      (((("en").data : List Char) = ("en").data ∧ _has_cjk (("你好").data) = true ∧
          _has_latin (("你好").data) = false ∧
          (none : Option (List Char → Except Unit (List Char))).isSome = true) ∨
       ((("en").data : List Char) = ("zh").data ∧ _has_latin (("你好").data) = true ∧
          _has_cjk (("你好").data) = false ∧
          (none : Option (List Char → Except Unit (List Char))).isSome = true))) ∧
    (translate_invokes none none (("你好").data) (("en").data) = false →
      translate_text none none (("你好").data) (("en").data) =
        stripList (("你好").data)) :=
  translate_gate none none (("你好").data) (("en").data)

/-- C6 (counterexample): the claim as stated fails on an input with
surrounding whitespace: with a provider that always raises, the result
for " 你好 " with target en is the stripped "你好", not the original
text. -/
theorem translate_error_cex :
    translate_text (some (fun _ => Except.error ())) (some (fun _ => Except.error ()))
      ((" 你好 ").data) (("en").data) ≠ (" 你好 ").data := by
  decide

/-- C6 (amended): if the invoked provider raises, translate_text catches
the exception and returns the stripped input text (the exact text that
was passed to the provider) instead of propagating the failure. -/
theorem translate_error_fallback (f g : List Char → Except Unit (List Char))
    (text target : List Char)
    (hf : f (stripList text) = Except.error ())
    (hg : g (stripList text) = Except.error ()) :
    translate_text (some f) (some g) text target = stripList text :=
  translate_text_of_error f g text target hf hg

/-- C6 (witness): a raising provider on a pure-CJK input with target en
yields the stripped input. -/
theorem translate_error_fallback_witness :
    translate_text (some (fun _ => Except.error ())) (some (fun _ => Except.error ()))
      (("你好").data) (("en").data) = stripList (("你好").data) :=
  translate_error_fallback (fun _ => Except.error ()) (fun _ => Except.error ())
    (("你好").data) (("en").data) rfl rfl

/-- C8 (counterexample): the claim as stated fails for a whitespace-only
input: translate_text returns the empty string, not the input
unchanged. -/
theorem translate_blank_cex :
    translate_text none none (("   ").data) (("zh").data) ≠ ("   ").data := by
  decide

/-- C8 (amended): for every empty or whitespace-only input and every
target language, translate_text returns the stripped input — the empty
string — and invokes no translation provider. -/
theorem translate_blank (z e : Option (List Char → Except Unit (List Char)))
    (text target : List Char) (h : ∀ c ∈ text, pyIsSpace c = true) :
    translate_text z e text target = [] ∧ translate_invokes z e text target = false := by
  have hnil : stripList text = [] := stripList_eq_nil_of_space text h
  constructor
  · unfold translate_text
    rw [if_pos hnil, hnil]
  · unfold translate_invokes
    rw [if_pos hnil]

/-- C8 (witness): blank input, target zh. -/
theorem translate_blank_witness :
    translate_text none none ((" ").data) (("zh").data) = [] ∧
    translate_invokes none none ((" ").data) (("zh").data) = false :=
  translate_blank none none ((" ").data) (("zh").data) (by decide)

/-- C10 (confirmed): whenever translate_text performs no translation
(no provider call, or the provider call raised), the returned value is
the input with leading and trailing whitespace stripped; in particular a
whitespace-only input yields the empty string. -/
theorem translate_passthrough (z e : Option (List Char → Except Unit (List Char)))
    (text target : List Char) (h : translate_performed z e text target = false) :
    translate_text z e text target = stripList text ∧
    ((∀ c ∈ text, pyIsSpace c = true) → translate_text z e text target = []) := by
  refine ⟨translate_text_of_not_performed z e text target h, fun hsp => ?_⟩
  rw [translate_text_of_not_performed z e text target h]
  exact stripList_eq_nil_of_space text hsp

/-- C10 (witness): passthrough at a concrete input with surrounding
whitespace. -/
theorem translate_passthrough_witness :
    translate_text none none ((" a ").data) (("en").data) = stripList ((" a ").data) ∧
    ((∀ c ∈ ((" a ").data), pyIsSpace c = true) →
      translate_text none none ((" a ").data) (("en").data) = []) :=
  translate_passthrough none none ((" a ").data) (("en").data) (by decide)

/-- Decimal digit characters round-trip through Char.ofNat. -/
lemma toNat_digitChar (m : Nat) (h : m < 10) : (Char.ofNat (48 + m)).toNat = 48 + m := by
  interval_cases m <;> decide

/-- Every character produced by the digit extraction is a digit
character. -/
lemma natDigitsGo_digit : ∀ fuel n, ∀ c ∈ natDigitsGo fuel n,
    48 ≤ c.toNat ∧ c.toNat ≤ 57 := by
  intro fuel
  induction fuel with
  | zero => intro n c hc; simp [natDigitsGo] at hc
  | succ fuel ih =>
    intro n c hc
    rw [natDigitsGo] at hc
    by_cases hx : n < 10
    · rw [if_pos hx] at hc
      simp only [List.mem_singleton] at hc
      subst hc
      rw [toNat_digitChar n hx]
      omega
    · rw [if_neg hx] at hc
      rcases List.mem_append.mp hc with h1 | h2
      · exact ih (n / 10) c h1
      · simp only [List.mem_singleton] at h2
        subst h2
        rw [toNat_digitChar (n % 10) (Nat.mod_lt _ (by norm_num))]
        omega

/-- Every character of a decimal rendering is a digit character. -/
lemma natDigits_digit (n : Nat) : ∀ c ∈ natDigits n, 48 ≤ c.toNat ∧ c.toNat ≤ 57 :=
  natDigitsGo_digit (n + 1) n

/-- The pipe separator is not a digit character. -/
lemma bar_not_mem_natDigits (n : Nat) : '|' ∉ natDigits n := by
  intro h
  obtain ⟨h1, h2⟩ := natDigits_digit n '|' h
  have hb : ('|').toNat = 124 := rfl
  omega

/-- Numeric value of a digit-character list, most significant first. -/
def natOfDigits (l : List Char) : Nat :=
  l.foldl (fun acc c => acc * 10 + (c.toNat - 48)) 0

/-- Folding the digit extraction of n onto any accumulator recovers n in
the low digits, for any sufficient fuel. -/
lemma foldl_natDigitsGo : ∀ fuel n acc, n < 10 ^ fuel →
    (natDigitsGo fuel n).foldl (fun acc c => acc * 10 + (c.toNat - 48)) acc =
      acc * 10 ^ (natDigitsGo fuel n).length + n := by
  intro fuel
  induction fuel with
  | zero =>
    intro n acc hn
    have : n = 0 := by simpa using hn
    subst this
    simp [natDigitsGo]
  | succ fuel ih =>
    intro n acc hn
    rw [natDigitsGo]
    by_cases hx : n < 10
    · rw [if_pos hx]
      simp [toNat_digitChar n hx]
    · rw [if_neg hx]
      have hdiv : n / 10 < 10 ^ fuel := by
        have hp : 10 ^ (fuel + 1) = 10 ^ fuel * 10 := pow_succ 10 fuel
        rw [hp] at hn
        omega
      rw [List.foldl_append, ih (n / 10) acc hdiv]
      have hmod : (Char.ofNat (48 + n % 10)).toNat = 48 + n % 10 :=
        toNat_digitChar (n % 10) (Nat.mod_lt _ (by norm_num))
      simp only [List.foldl_cons, List.foldl_nil, hmod, List.length_append,
        List.length_singleton]
      have hn10 : 10 * (n / 10) + n % 10 = n := Nat.div_add_mod n 10
      have hpow : 10 ^ ((natDigitsGo fuel (n / 10)).length + 1) =
          10 ^ (natDigitsGo fuel (n / 10)).length * 10 := pow_succ 10 _
      rw [hpow]
      have h48 : 48 + n % 10 - 48 = n % 10 := by omega
      rw [h48]
      nlinarith [hn10]

/-- Every number is below 10 to its own successor. -/
lemma lt_pow_ten (n : Nat) : n < 10 ^ (n + 1) := by
  calc n < 2 ^ n * 2 := by
        have := Nat.lt_two_pow n
        omega
    _ = 2 ^ (n + 1) := (pow_succ 2 n).symm
    _ ≤ 10 ^ (n + 1) := Nat.pow_le_pow_left (by norm_num) _

/-- Decimal rendering is injective. -/
lemma natDigits_inj (a b : Nat) (h : natDigits a = natDigits b) : a = b := by
  have ha := foldl_natDigitsGo (a + 1) a 0 (lt_pow_ten a)
  have hb := foldl_natDigitsGo (b + 1) b 0 (lt_pow_ten b)
  unfold natDigits at h
  rw [h] at ha
  rw [ha] at hb
  omega

/-- Splitting at the final pipe: if the tails after a pipe are pipe-free,
equality of the assembled lists forces equality of both parts. -/
lemma append_bar_inj : ∀ (l1 l2 t1 t2 : List Char), '|' ∉ t1 → '|' ∉ t2 →
    l1 ++ '|' :: t1 = l2 ++ '|' :: t2 → l1 = l2 ∧ t1 = t2 := by
  intro l1
  induction l1 with
  | nil =>
    intro l2 t1 t2 h1 h2 heq
    cases l2 with
    | nil =>
      simp only [List.nil_append, List.cons.injEq] at heq
      exact ⟨rfl, heq.2⟩
    | cons b l2' =>
      simp only [List.nil_append, List.cons_append, List.cons.injEq] at heq
      exfalso
      apply h1
      rw [heq.2]
      exact List.mem_append_right _ (by simp)
  | cons a l1 ih =>
    intro l2 t1 t2 h1 h2 heq
    cases l2 with
    | nil =>
      simp only [List.nil_append, List.cons_append, List.cons.injEq] at heq
      exfalso
      apply h2
      rw [← heq.2]
      exact List.mem_append_right _ (by simp)
    | cons b l2' =>
      simp only [List.cons_append, List.cons.injEq] at heq
      obtain ⟨hab, ht⟩ := heq
      obtain ⟨he, ht2⟩ := ih l2' t1 t2 h1 h2 ht
      exact ⟨by rw [hab, he], ht2⟩

/-- No pipe in the page component of an id. -/
lemma bar_not_mem_pageComp (n : Nat) : '|' ∉ 'p' :: natDigits n := by
  intro h
  rcases List.mem_cons.mp h with h | h
  · exact absurd h (by decide)
  · exact bar_not_mem_natDigits n h

/-- No pipe in the chunk-index component of an id. -/
lemma bar_not_mem_chunkComp (n : Nat) : '|' ∉ 'c' :: natDigits n := by
  intro h
  rcases List.mem_cons.mp h with h | h
  · exact absurd h (by decide)
  · exact bar_not_mem_natDigits n h

/-- The composite chunk id determines its filename, page and chunk index:
the numeric components contain no pipe, so the id parses uniquely from
its final two pipes. -/
lemma chunkId_inj (f1 f2 : List Char) (p1 c1 p2 c2 : Nat)
    (h : chunkId f1 p1 c1 = chunkId f2 p2 c2) : f1 = f2 ∧ p1 = p2 ∧ c1 = c2 := by
  unfold chunkId at h
  obtain ⟨h2, h3⟩ := append_bar_inj _ _ ('c' :: natDigits c1) ('c' :: natDigits c2)
    (bar_not_mem_chunkComp c1) (bar_not_mem_chunkComp c2) h
  obtain ⟨h4, h5⟩ := append_bar_inj f1 f2 ('p' :: natDigits p1) ('p' :: natDigits p2)
    (bar_not_mem_pageComp p1) (bar_not_mem_pageComp p2) h2
  simp only [List.cons.injEq, true_and] at h3 h5
  exact ⟨h4, natDigits_inj _ _ h5, natDigits_inj _ _ h3⟩

/-- Page indices of a pdf document are the enumerate indices, hence
distinct. -/
lemma read_pdf_pages_nodup (p : Entry) : ((read_pdf p).map (fun pg => pg.page)).Nodup := by
  unfold read_pdf
  rw [List.map_map]
  have hcomp : ((fun pg : Page => pg.page) ∘
      (fun it : Nat × List Char => ({ text := it.2, page := it.1 } : Page))) = Prod.fst :=
    rfl
  rw [hcomp, List.enum_map_fst]
  exact List.nodup_range _

/-- The entry dispatch of iter_docs, phrased with the qualifying
predicate and the document constructor. -/
lemma entryDoc_eq (p : Entry) :
    entryDoc p = if supportedEntry p = true then some (entryBuild p) else none := by
  by_cases h1 : (!p.isFile) = true <;>
    by_cases h2 : suffixLower p.name = (".txt").data <;>
    by_cases h3 : suffixLower p.name = (".pdf").data <;>
    by_cases h4 : suffixLower p.name = (".docx").data <;>
    simp [entryDoc, supportedEntry, entryBuild, h1, h2, h3, h4]

/-- Every document produced by iter_docs has pairwise distinct page
indices: text and docx documents have the single page 0, and pdf pages
are numbered by enumerate. -/
lemma iter_docs_pages_nodup (entries : List Entry) :
    ∀ d ∈ iter_docs entries, ((d.pages.map (fun pg => pg.page)).Nodup) := by
  intro d hd
  unfold iter_docs at hd
  obtain ⟨a, ha, hda⟩ := List.mem_filterMap.mp hd
  rw [entryDoc_eq] at hda
  by_cases hs : supportedEntry a = true
  · rw [if_pos hs, Option.some.injEq] at hda
    subst hda
    by_cases h2 : suffixLower a.name = (".txt").data
    · simp [entryBuild, h2]
    · by_cases h3 : suffixLower a.name = (".pdf").data
      · simpa [entryBuild, h2, h3] using read_pdf_pages_nodup a
      · simp [entryBuild, h2, h3, read_docx]
  · rw [if_neg hs] at hda
    exact absurd hda (by simp)

/-- Ids of a rebuild are distinct provided the documents have distinct
filenames and each document has distinct page indices. -/
lemma rebuild_ids_nodup_of (docs : List PDoc)
    (hnames : (docs.map (fun d => d.filename)).Nodup)
    (hpages : ∀ d ∈ docs, ((d.pages.map (fun pg => pg.page)).Nodup)) :
    (rebuild_ids docs).Nodup := by
  unfold rebuild_ids
  rw [List.nodup_flatMap]
  constructor
  · intro d hd
    rw [List.nodup_flatMap]
    constructor
    · intro pg hpg
      refine List.Nodup.map ?_ (List.nodup_range _)
      intro i j hij
      exact (chunkId_inj _ _ _ _ _ _ hij).2.2
    · have hp := hpages d hd
      unfold List.Nodup at hp
      rw [List.pairwise_map] at hp
      refine hp.imp ?_
      intro a b hab x hxa hxb
      obtain ⟨i, hi, hxi⟩ := List.mem_map.mp hxa
      obtain ⟨j, hj, hxj⟩ := List.mem_map.mp hxb
      rw [← hxi] at hxj
      exact hab (chunkId_inj _ _ _ _ _ _ hxj.symm).2.1
  · unfold List.Nodup at hnames
    rw [List.pairwise_map] at hnames
    refine hnames.imp ?_
    intro d1 d2 hne x hx1 hx2
    obtain ⟨pg1, hpg1, hm1⟩ := List.mem_flatMap.mp hx1
    obtain ⟨i, hi, hxi⟩ := List.mem_map.mp hm1
    obtain ⟨pg2, hpg2, hm2⟩ := List.mem_flatMap.mp hx2
    obtain ⟨j, hj, hxj⟩ := List.mem_map.mp hm2
    rw [← hxi] at hxj
    exact hne (chunkId_inj _ _ _ _ _ _ hxj.symm).1

/-- C4 (confirmed): for documents ingested from a directory whose
filenames are pairwise distinct, the composite chunk ids built by
rebuild_index (filename|p<page>|c<chunk_index>) contain no duplicates:
the numeric components are pipe-free, so an id parses uniquely, and page
and chunk indices are distinct by construction. -/
theorem rebuild_ids_nodup (entries : List Entry)
    (h : ((iter_docs entries).map (fun d => d.filename)).Nodup) :
    (rebuild_ids (iter_docs entries)).Nodup :=
  rebuild_ids_nodup_of (iter_docs entries) h (iter_docs_pages_nodup entries)

/-- Concrete directory entry used by witnesses: a text file. -/
def wTxtEntry : Entry :=
  { name := ("b.txt").data, isFile := true, txtContent := ("hello").data,
    pdfPages := [], docxParas := [] }

/-- Concrete directory entry used by witnesses: a two-page pdf file. -/
def wPdfEntry : Entry :=
  { name := ("a.pdf").data, isFile := true, txtContent := [],
    pdfPages := [("one").data, ("two").data], docxParas := [] }

/-- C4 (witness): distinct ids for a concrete two-file directory. -/
theorem rebuild_ids_nodup_witness :
    ((iter_docs [wTxtEntry, wPdfEntry]).map (fun d => d.filename)).Nodup ∧
    (rebuild_ids (iter_docs [wTxtEntry, wPdfEntry])).Nodup :=
  ⟨by decide, rebuild_ids_nodup [wTxtEntry, wPdfEntry] (by decide)⟩

/-- Name-comparison order on directory entries is total. -/
instance : IsTotal Entry (fun a b : Entry => a.name ≤ b.name) :=
  ⟨fun a b => le_total a.name b.name⟩

/-- Name-comparison order on directory entries is transitive. -/
instance : IsTrans Entry (fun a b : Entry => a.name ≤ b.name) :=
  ⟨fun _ _ _ hab hbc => le_trans hab hbc⟩

/-- The loop of iter_docs keeps exactly the qualifying entries, building
one document each. -/
lemma filterMap_entryDoc (l : List Entry) :
    l.filterMap entryDoc = (l.filter supportedEntry).map entryBuild := by
  induction l with
  | nil => rfl
  | cons a l ih =>
    rw [List.filterMap_cons, List.filter_cons]
    by_cases h : supportedEntry a = true
    · rw [entryDoc_eq a, if_pos h]
      simp [h, ih]
    · rw [entryDoc_eq a, if_neg h]
      simp [h, ih]

/-- The document built for an entry keeps the entry's filename. -/
lemma entryBuild_filename (p : Entry) : (entryBuild p).filename = p.name := by
  by_cases h2 : suffixLower p.name = (".txt").data <;>
    by_cases h3 : suffixLower p.name = (".pdf").data <;>
    simp [entryBuild, h2, h3]

/-- C9 (confirmed): iter_docs produces one document per regular file
whose lowercased extension is .txt, .pdf or .docx — every qualifying
entry's document is in the output, and the output filenames are exactly
the qualifying names in lexicographic order — and silently skips every
other entry. -/
theorem iter_docs_spec (entries : List Entry) :
    (iter_docs entries).map (fun d => d.filename) =
      List.insertionSort (fun a b : List Char => a ≤ b)
        ((entries.filter supportedEntry).map (fun p => p.name)) ∧
    ∀ p ∈ entries, supportedEntry p = true → entryBuild p ∈ iter_docs entries := by
  constructor
  · unfold iter_docs
    rw [filterMap_entryDoc, List.map_map]
    have hfun : ((fun d : PDoc => d.filename) ∘ entryBuild) = (fun p : Entry => p.name) :=
      funext fun p => entryBuild_filename p
    rw [hfun]
    have hperm :
        (((List.insertionSort (fun a b : Entry => a.name ≤ b.name) entries).filter
            supportedEntry).map (fun p : Entry => p.name)).Perm
          (List.insertionSort (fun a b : List Char => a ≤ b)
            ((entries.filter supportedEntry).map (fun p : Entry => p.name))) := by
      refine List.Perm.trans ?_
        (List.perm_insertionSort (fun a b : List Char => a ≤ b) _).symm
      exact ((List.perm_insertionSort _ entries).filter supportedEntry).map _
    have hsorted1 : List.Sorted (fun a b : List Char => a ≤ b)
        (((List.insertionSort (fun a b : Entry => a.name ≤ b.name) entries).filter
          supportedEntry).map (fun p : Entry => p.name)) := by
      have hs := List.sorted_insertionSort (fun a b : Entry => a.name ≤ b.name) entries
      have hf := List.Pairwise.sublist
        (@List.filter_sublist Entry supportedEntry
          (List.insertionSort (fun a b : Entry => a.name ≤ b.name) entries)) hs
      exact List.Pairwise.map _ (fun a b hab => hab) hf
    have hsorted2 : List.Sorted (fun a b : List Char => a ≤ b)
        (List.insertionSort (fun a b : List Char => a ≤ b)
          ((entries.filter supportedEntry).map (fun p : Entry => p.name))) :=
      List.sorted_insertionSort _ _
    exact List.eq_of_perm_of_sorted hperm hsorted1 hsorted2
  · intro p hp hs
    unfold iter_docs
    rw [filterMap_entryDoc]
    refine List.mem_map_of_mem _ (List.mem_filter.mpr ⟨?_, hs⟩)
    exact (List.perm_insertionSort _ entries).mem_iff.mpr hp

/-- C9 (witness): the theorem at a concrete two-entry directory. -/
theorem iter_docs_spec_witness :
    (iter_docs [wTxtEntry, wPdfEntry]).map (fun d => d.filename) =
      List.insertionSort (fun a b : List Char => a ≤ b)
        (([wTxtEntry, wPdfEntry].filter supportedEntry).map (fun p => p.name)) ∧
    ∀ p ∈ [wTxtEntry, wPdfEntry], supportedEntry p = true →
      entryBuild p ∈ iter_docs [wTxtEntry, wPdfEntry] :=
  iter_docs_spec [wTxtEntry, wPdfEntry]

/-- C5 (counterexample): the length bound of the claim does not hold for
every store response: a store that ignores the requested count and
returns two well-formed pairs makes retrieve return two pairs for
top_k = 1. -/
theorem retrieve_topk_cex :
    ¬ ((retrieve (fun _ _ => ([some (("a").data), some (("b").data)],
          [some (("m").data), some (("m").data)]))
        (("q").data) 1).length ≤ 1) := by
  decide

/-- C5 (amended): retrieve returns exactly the position-aligned
(document, metadata) pairs of the store response in which both components
are non-null and non-empty, in the store's order (a sublist of the zipped
response), and its length is bounded by top_k whenever the store honors
the requested result count. -/
theorem retrieve_spec {β : Type}
    (store : List Char → Nat → List (Option (List Char)) × List (Option (List β)))
    (question : List Char) (top_k : Nat) :
    List.Sublist (retrieve store question top_k)
      (((store question top_k).1).zip ((store question top_k).2)) ∧
    (∀ dm ∈ ((store question top_k).1).zip ((store question top_k).2),
      pyTruthy dm.1 = true → pyTruthy dm.2 = true →
        dm ∈ retrieve store question top_k) ∧
    (∀ dm ∈ retrieve store question top_k,
      pyTruthy dm.1 = true ∧ pyTruthy dm.2 = true) ∧
    ((store question top_k).1.length ≤ top_k →
      (retrieve store question top_k).length ≤ top_k) := by
  refine ⟨List.filter_sublist _, ?_, ?_, ?_⟩
  · intro dm hm h1 h2
    exact List.mem_filter.mpr ⟨hm, by simp [h1, h2]⟩
  · intro dm hm
    have := (List.mem_filter.mp hm).2
    simpa using this
  · intro hlen
    have h1 := List.length_filter_le
      (fun dm : Option (List Char) × Option (List β) => pyTruthy dm.1 && pyTruthy dm.2)
      (((store question top_k).1).zip ((store question top_k).2))
    have h2 : ((((store question top_k).1).zip ((store question top_k).2)).length) =
        min ((store question top_k).1.length) ((store question top_k).2.length) :=
      List.length_zip _ _
    have he : retrieve store question top_k =
        (((store question top_k).1).zip ((store question top_k).2)).filter
          (fun dm => pyTruthy dm.1 && pyTruthy dm.2) := rfl
    rw [he]
    omega

/-- Concrete store used by the C5 witness: one good pair, one padded
null. -/
def wStore : List Char → Nat → List (Option (List Char)) × List (Option (List Char)) :=
  fun _ _ => ([some (("a").data), none], [some (("m").data), some (("m").data)])

/-- C5 (witness): the theorem at a concrete store and query. -/
theorem retrieve_spec_witness :
    List.Sublist (retrieve wStore (("q").data) 5)
      (((wStore (("q").data) 5).1).zip ((wStore (("q").data) 5).2)) ∧
    (∀ dm ∈ ((wStore (("q").data) 5).1).zip ((wStore (("q").data) 5).2),
      pyTruthy dm.1 = true → pyTruthy dm.2 = true →
        dm ∈ retrieve wStore (("q").data) 5) ∧
    (∀ dm ∈ retrieve wStore (("q").data) 5,
      pyTruthy dm.1 = true ∧ pyTruthy dm.2 = true) ∧
    ((wStore (("q").data) 5).1.length ≤ 5 →
      (retrieve wStore (("q").data) 5).length ≤ 5) :=
  retrieve_spec wStore (("q").data) 5
